import Mathlib

/-!
# Proxy metrics collector (`registry/proxy/proxymetrics.go`)

A shallow embedding of the proxy metrics collector: two groups of five unsigned
64-bit counters (blobs and manifests), the labeled counter `proxyCount`, and the
four recording operations `BlobPull`, `BlobPush`, `ManifestPull`, `ManifestPush`.

Unsigned 64-bit values are natural numbers; every addition performed by the code
is `atomic.AddUint64`, embedded as addition modulo `2 ^ 64`.
-/

namespace Proxy

/-! ## Data model -/

/-- Number of distinct values of a Go `uint64`. -/
def uint64Size : Nat := 2 ^ 64

/-- Metrics is used to hold metric counters related to the proxy
(`type Metrics struct`, five `uint64` fields). -/
structure Metrics where
  Requests : Nat
  Hits : Nat
  Misses : Nat
  BytesPulled : Nat
  BytesPushed : Nat
deriving DecidableEq, Repr

/-- The collector `type proxyMetricsCollector struct`: one `Metrics` per resource class. -/
structure proxyMetricsCollector where
  blobMetrics : Metrics
  manifestMetrics : Metrics
deriving DecidableEq, Repr

/-- The labeled counter `proxyCount` (one label dimension, `type`): the count
recorded for each label value. -/
abbrev LabeledCounter := String → Nat

/-- The mutable state the four operations act on: the collector behind the
receiver `pmc` and the package-level labeled counter `proxyCount`. -/
structure ProxyState where
  pmc : proxyMetricsCollector
  proxyCount : LabeledCounter

/-- Every field of a group holds a `uint64`. -/
def Metrics.wf (m : Metrics) : Prop :=
  m.Requests < uint64Size ∧ m.Hits < uint64Size ∧ m.Misses < uint64Size ∧
    m.BytesPulled < uint64Size ∧ m.BytesPushed < uint64Size

instance (m : Metrics) : Decidable m.wf := by
  unfold Metrics.wf; infer_instance

/-- Every field of both groups holds a `uint64`. -/
def proxyMetricsCollector.wf (c : proxyMetricsCollector) : Prop :=
  c.blobMetrics.wf ∧ c.manifestMetrics.wf

instance (c : proxyMetricsCollector) : Decidable c.wf := by
  unfold proxyMetricsCollector.wf; infer_instance

/-! ## Primitive updates -/

/-- The value stored by `atomic.AddUint64(addr, delta)` when `*addr = old`:
`uint64` addition wraps around. -/
def AddUint64 (old delta : Nat) : Nat := (old + delta) % uint64Size

/-- The effect of `proxyCount.WithValues(label).Inc(1)`: the count of `label` goes up by one. -/
def WithValuesInc (c : LabeledCounter) (label : String) : LabeledCounter :=
  fun l => if l = label then c l + 1 else c l

/-- The zero value `Metrics{}`. -/
def Metrics.zero : Metrics :=
  { Requests := 0, Hits := 0, Misses := 0, BytesPulled := 0, BytesPushed := 0 }

/-- The zero value `&proxyMetricsCollector{}` that `proxyMetrics` is initialised to. -/
def proxyMetrics : proxyMetricsCollector :=
  { blobMetrics := Metrics.zero, manifestMetrics := Metrics.zero }

/-- The state at process start: the fresh collector and a labeled counter with no events. -/
def ProxyState.fresh : ProxyState :=
  { pmc := proxyMetrics, proxyCount := fun _ => 0 }

/-! ## The four operations -/

/-- BlobPull tracks metrics about blobs pulled into the cache. -/
def BlobPull (s : ProxyState) (bytesPulled : Nat) : ProxyState :=
  let s : ProxyState :=
    { s with pmc.blobMetrics.Misses := AddUint64 s.pmc.blobMetrics.Misses 1 }
  let s : ProxyState :=
    { s with pmc.blobMetrics.BytesPulled := AddUint64 s.pmc.blobMetrics.BytesPulled bytesPulled }
  { s with proxyCount := WithValuesInc s.proxyCount "BlobPull" }

/-- BlobPush tracks metrics about blobs pushed to clients. -/
def BlobPush (s : ProxyState) (bytesPushed : Nat) : ProxyState :=
  let s : ProxyState :=
    { s with pmc.blobMetrics.Requests := AddUint64 s.pmc.blobMetrics.Requests 1 }
  let s : ProxyState :=
    { s with pmc.blobMetrics.Hits := AddUint64 s.pmc.blobMetrics.Hits 1 }
  let s : ProxyState :=
    { s with pmc.blobMetrics.BytesPushed := AddUint64 s.pmc.blobMetrics.BytesPushed bytesPushed }
  { s with proxyCount := WithValuesInc s.proxyCount "BlobPush" }

/-- ManifestPull tracks metrics related to manifests pulled into the cache. -/
def ManifestPull (s : ProxyState) (bytesPulled : Nat) : ProxyState :=
  let s : ProxyState :=
    { s with pmc.manifestMetrics.Misses := AddUint64 s.pmc.manifestMetrics.Misses 1 }
  let s : ProxyState :=
    { s with
      pmc.manifestMetrics.BytesPulled := AddUint64 s.pmc.manifestMetrics.BytesPulled bytesPulled }
  { s with proxyCount := WithValuesInc s.proxyCount "ManifestPull" }

/-- ManifestPush tracks metrics about manifests pushed to clients. -/
def ManifestPush (s : ProxyState) (bytesPushed : Nat) : ProxyState :=
  let s : ProxyState :=
    { s with pmc.manifestMetrics.Requests := AddUint64 s.pmc.manifestMetrics.Requests 1 }
  let s : ProxyState :=
    { s with pmc.manifestMetrics.Hits := AddUint64 s.pmc.manifestMetrics.Hits 1 }
  let s : ProxyState :=
    { s with
      pmc.manifestMetrics.BytesPushed := AddUint64 s.pmc.manifestMetrics.BytesPushed bytesPushed }
  { s with proxyCount := WithValuesInc s.proxyCount "ManifestPush" }

/-! ## Sequences of calls -/

/-- One call of one of the four operations, with its byte argument. -/
inductive Call where
  | BlobPull (bytesPulled : Nat)
  | BlobPush (bytesPushed : Nat)
  | ManifestPull (bytesPulled : Nat)
  | ManifestPush (bytesPushed : Nat)
deriving DecidableEq, Repr

/-- Perform one call on a state. -/
def Call.exec (s : ProxyState) : Call → ProxyState
  | .BlobPull b => Proxy.BlobPull s b
  | .BlobPush b => Proxy.BlobPush s b
  | .ManifestPull b => Proxy.ManifestPull s b
  | .ManifestPush b => Proxy.ManifestPush s b

/-- Perform a list of calls one after another, first call first. -/
def runCalls (s : ProxyState) (cs : List Call) : ProxyState :=
  cs.foldl Call.exec s

/-- The byte argument a call passes to its operation. -/
def Call.bytes : Call → Nat
  | .BlobPull b => b
  | .BlobPush b => b
  | .ManifestPull b => b
  | .ManifestPush b => b

/-- The arguments of the `BlobPull` calls of a list, in order. -/
def blobPullBytes (cs : List Call) : List Nat :=
  cs.filterMap fun c => match c with
    | .BlobPull b => some b
    | _ => none

/-- The arguments of the `BlobPush` calls of a list, in order. -/
def blobPushBytes (cs : List Call) : List Nat :=
  cs.filterMap fun c => match c with
    | .BlobPush b => some b
    | _ => none

/-- The arguments of the `ManifestPull` calls of a list, in order. -/
def manifestPullBytes (cs : List Call) : List Nat :=
  cs.filterMap fun c => match c with
    | .ManifestPull b => some b
    | _ => none

/-- The arguments of the `ManifestPush` calls of a list, in order. -/
def manifestPushBytes (cs : List Call) : List Nat :=
  cs.filterMap fun c => match c with
    | .ManifestPush b => some b
    | _ => none

/-! ## Comparing two readings of the counters -/

/-- Every field of `a` is at most the same field of `b`. -/
def Metrics.le (a b : Metrics) : Prop :=
  a.Requests ≤ b.Requests ∧ a.Hits ≤ b.Hits ∧ a.Misses ≤ b.Misses ∧
    a.BytesPulled ≤ b.BytesPulled ∧ a.BytesPushed ≤ b.BytesPushed

instance (a b : Metrics) : Decidable (a.le b) := by
  unfold Metrics.le; infer_instance

/-- Every one of the ten fields of `a` is at most the same field of `b`. -/
def proxyMetricsCollector.le (a b : proxyMetricsCollector) : Prop :=
  a.blobMetrics.le b.blobMetrics ∧ a.manifestMetrics.le b.manifestMetrics

instance (a b : proxyMetricsCollector) : Decidable (a.le b) := by
  unfold proxyMetricsCollector.le; infer_instance

/-- None of the additions the call performs on the collector `c` exceeds the
largest `uint64`: the incremented counters are below `2 ^ 64 - 1` and the byte
counter plus the argument is at most `2 ^ 64 - 1`. -/
def Call.noWrap (c : proxyMetricsCollector) : Call → Prop
  | .BlobPull b =>
      c.blobMetrics.Misses + 1 < uint64Size ∧ c.blobMetrics.BytesPulled + b < uint64Size
  | .BlobPush b =>
      c.blobMetrics.Requests + 1 < uint64Size ∧ c.blobMetrics.Hits + 1 < uint64Size ∧
        c.blobMetrics.BytesPushed + b < uint64Size
  | .ManifestPull b =>
      c.manifestMetrics.Misses + 1 < uint64Size ∧
        c.manifestMetrics.BytesPulled + b < uint64Size
  | .ManifestPush b =>
      c.manifestMetrics.Requests + 1 < uint64Size ∧ c.manifestMetrics.Hits + 1 < uint64Size ∧
        c.manifestMetrics.BytesPushed + b < uint64Size

instance (c : proxyMetricsCollector) (k : Call) : Decidable (k.noWrap c) := by
  cases k <;> unfold Call.noWrap <;> infer_instance

/-- A state whose blob `Misses` counter holds the largest `uint64`, all other
counters being zero. -/
def missesAtMax : ProxyState :=
  { pmc :=
      { blobMetrics := { Metrics.zero with Misses := 2 ^ 64 - 1 }
        manifestMetrics := Metrics.zero }
    proxyCount := fun _ => 0 }

/-! ## Atomic steps and interleaved execution -/

/-- The two counter groups of the collector. -/
inductive Group where
  | blob
  | manifest
deriving DecidableEq, Repr

/-- The five counters of a group. -/
inductive Field where
  | Requests
  | Hits
  | Misses
  | BytesPulled
  | BytesPushed
deriving DecidableEq, Repr

/-- Read one counter of a group. -/
def Metrics.get (m : Metrics) : Field → Nat
  | .Requests => m.Requests
  | .Hits => m.Hits
  | .Misses => m.Misses
  | .BytesPulled => m.BytesPulled
  | .BytesPushed => m.BytesPushed

/-- Read one of the ten counters of the collector. -/
def proxyMetricsCollector.get (c : proxyMetricsCollector) : Group → Field → Nat
  | .blob, f => c.blobMetrics.get f
  | .manifest, f => c.manifestMetrics.get f

/-- Apply `atomic.AddUint64(&m.<field>, delta)` to one counter of a group. -/
def Metrics.add (m : Metrics) (f : Field) (delta : Nat) : Metrics :=
  match f with
  | .Requests => { m with Requests := AddUint64 m.Requests delta }
  | .Hits => { m with Hits := AddUint64 m.Hits delta }
  | .Misses => { m with Misses := AddUint64 m.Misses delta }
  | .BytesPulled => { m with BytesPulled := AddUint64 m.BytesPulled delta }
  | .BytesPushed => { m with BytesPushed := AddUint64 m.BytesPushed delta }

/-- One indivisible statement of an operation: an `atomic.AddUint64` on one counter,
or the increment of one label of `proxyCount`. -/
inductive Step where
  | add (g : Group) (f : Field) (delta : Nat)
  | inc (label : String)
deriving DecidableEq, Repr

/-- Perform one indivisible statement on the state. -/
def Step.exec (s : ProxyState) : Step → ProxyState
  | .add .blob f delta => { s with pmc.blobMetrics := s.pmc.blobMetrics.add f delta }
  | .add .manifest f delta => { s with pmc.manifestMetrics := s.pmc.manifestMetrics.add f delta }
  | .inc label => { s with proxyCount := WithValuesInc s.proxyCount label }

/-- The statements of each operation, in source order. -/
def Call.steps : Call → List Step
  | .BlobPull b =>
      [.add .blob .Misses 1, .add .blob .BytesPulled b, .inc "BlobPull"]
  | .BlobPush b =>
      [.add .blob .Requests 1, .add .blob .Hits 1, .add .blob .BytesPushed b, .inc "BlobPush"]
  | .ManifestPull b =>
      [.add .manifest .Misses 1, .add .manifest .BytesPulled b, .inc "ManifestPull"]
  | .ManifestPush b =>
      [.add .manifest .Requests 1, .add .manifest .Hits 1, .add .manifest .BytesPushed b,
        .inc "ManifestPush"]

/-- What a statement adds to the counter `f` of group `g` (zero when it does not touch it). -/
def Step.delta (g : Group) (f : Field) : Step → Nat
  | .add g1 f1 delta => if g1 = g ∧ f1 = f then delta else 0
  | .inc _ => 0

/-- What a call adds to the counter `f` of group `g`: the sum over its statements. -/
def Call.delta (c : Call) (g : Group) (f : Field) : Nat :=
  (c.steps.map (Step.delta g f)).sum

/-- The state of a concurrent execution: the shared state and, for each call in
flight, the statements it has not performed yet. -/
abbrev Conc := ProxyState × List (List Step)

/-- One scheduling decision: the call with index `i` performs its next statement.
Choosing a call that has finished (or an index out of range) changes nothing. -/
def tick (st : Conc) (i : Nat) : Conc :=
  match st.2[i]? with
  | some (x :: rest) => (x.exec st.1, st.2.set i rest)
  | _ => st

/-- Run the calls `cs` concurrently from `s` under the schedule `sched`, which
names, tick after tick, the call that performs its next statement. -/
def runSchedule (s : ProxyState) (cs : List Call) (sched : List Nat) : Conc :=
  sched.foldl tick (s, cs.map Call.steps)

/-- Every call in flight has performed all its statements. -/
def Conc.done (st : Conc) : Bool := st.2.all List.isEmpty

/-- The state reached by performing, in pool order, all statements still pending. -/
def Conc.outcome (st : Conc) : ProxyState := st.2.flatten.foldl Step.exec st.1

/-- A state whose blob `BytesPulled` counter holds the largest `uint64`, all other
counters being zero. -/
def bytesPulledAtMax : ProxyState :=
  { pmc :=
      { blobMetrics := { Metrics.zero with BytesPulled := 2 ^ 64 - 1 }
        manifestMetrics := Metrics.zero }
    proxyCount := fun _ => 0 }

/-! ## The introspection tree (`expvar`) and the registration step -/

/-- A variable published in the introspection tree (`expvar.Var`): a map of named
variables (`*expvar.Map`, read with `Get`), a callable (`expvar.Func`: a closure run
against the process state, returning a counter group when its value is one), or a
variable of any other kind. A map stands for the map object it points to. -/
inductive Var where
  | Map (entries : String → Option Var)
  | Func (f : ProxyState → Option Metrics × ProxyState)
  | Other (tag : Nat)

/-- The whole process state: the collector with its labeled counter, and the
variables published at the top level of the introspection tree. -/
structure World where
  proxy : ProxyState
  vars : String → Option Var

/-- The effect of `Set(key, v)` on the entries of a map (and of publishing `v`
under `key` at the top level): `key` now holds `v`, every other key is untouched. -/
def expvarSet (m : String → Option Var) (key : String) (v : Var) : String → Option Var :=
  fun k => if k = key then some v else m k

/-- The empty map created by `expvar.NewMap` and by `&expvar.Map{}` with `Init()`. -/
def newMap : Var := .Map fun _ => none

/-- The closure registered under `blobs`: `return proxyMetrics.blobMetrics`. -/
def blobsFunc : ProxyState → Option Metrics × ProxyState :=
  fun s => (some s.pmc.blobMetrics, s)

/-- The closure registered under `manifests`: `return proxyMetrics.manifestMetrics`. -/
def manifestsFunc : ProxyState → Option Metrics × ProxyState :=
  fun s => (some s.pmc.manifestMetrics, s)

/-- The registration step (the second `init()` of the file). `registry` is the
top-level variable `registry`, created as an empty map when absent; `pm` is its
entry `proxy`, created as an empty map when absent. Each of the two type assertions
`.(*expvar.Map)` panics on a variable that is not a map. The two leaves are then
set under `pm`. -/
def init (w : World) : Except String World :=
  let registry : Var := (w.vars "registry").getD newMap
  match registry with
  | .Map rm =>
    let pm : Var := (rm "proxy").getD newMap
    match pm with
    | .Map pmm =>
      let pmm := expvarSet pmm "blobs" (.Func blobsFunc)
      let pmm := expvarSet pmm "manifests" (.Func manifestsFunc)
      .ok { w with vars := expvarSet w.vars "registry" (.Map (expvarSet rm "proxy" (.Map pmm))) }
    | _ => .error "interface conversion: expvar.Var is not *expvar.Map"
  | _ => .error "interface conversion: expvar.Var is not *expvar.Map"

/-- The method `Get` of a map; a variable that is not a map has no entries. -/
def Var.Get : Var → String → Option Var
  | .Map m, key => m key
  | _, _ => none

/-- Resolve a path of names from the top level of the tree. -/
def resolve (vars : String → Option Var) : List String → Option Var
  | [] => none
  | k :: ks => ks.foldl (fun v key => v.bind fun x => x.Get key) (vars k)

/-- Whether a variable is a map. -/
def Var.isMap : Var → Bool
  | .Map _ => true
  | _ => false

/-- The tree holds an incompatible value at the expected path: `registry` exists
and is not a map, or it is a map whose entry `proxy` exists and is not a map. -/
def incompatible (vars : String → Option Var) : Prop :=
  (∃ r, vars "registry" = some r ∧ r.isMap = false) ∨
  (∃ rm p, vars "registry" = some (.Map rm) ∧ rm "proxy" = some p ∧ p.isMap = false)

/-- The process at start: the fresh collector and an empty introspection tree. -/
def World.start : World :=
  { proxy := ProxyState.fresh, vars := fun _ => none }

/-- The process after one registration from `World.start`. -/
def World.registered : World :=
  { proxy := ProxyState.fresh
    vars := expvarSet (fun _ => none) "registry"
      (.Map (expvarSet (fun _ => none) "proxy"
        (.Map (expvarSet (expvarSet (fun _ => none) "blobs" (.Func blobsFunc))
          "manifests" (.Func manifestsFunc))))) }

/-- A process in which `registry.proxy.blobs` is already taken by a variable of
another kind, and in which some calls have been recorded. -/
def World.leafTaken : World :=
  { proxy := BlobPull ProxyState.fresh 9
    vars := expvarSet (fun _ => none) "registry"
      (.Map (expvarSet (fun _ => none) "proxy"
        (.Map (expvarSet (fun _ => none) "blobs" (.Other 0))))) }

/-- Whether a statement is an addition on the counter `f` of group `g`. -/
def Step.touches (g : Group) (f : Field) : Step → Bool
  | .add g1 f1 _ => decide (g1 = g ∧ f1 = f)
  | .inc _ => false

/-- Whether a call adds to the counter `f` of group `g`: one of its statements is
an addition on that counter. -/
def Call.touches (c : Call) (g : Group) (f : Field) : Bool :=
  c.steps.any (Step.touches g f)

/-- Two concurrent calls whose byte arguments are `uint64` values summing to `2 ^ 64`. -/
def wrappingCalls : List Call := [Call.BlobPull (2 ^ 64 - 1), Call.BlobPull 1]

/-! ## Basic facts about the four operations -/

theorem BlobPull_pmc (s : ProxyState) (b : Nat) :
    (BlobPull s b).pmc =
      { blobMetrics :=
          { s.pmc.blobMetrics with
            Misses := AddUint64 s.pmc.blobMetrics.Misses 1
            BytesPulled := AddUint64 s.pmc.blobMetrics.BytesPulled b }
        manifestMetrics := s.pmc.manifestMetrics } := rfl

theorem BlobPush_pmc (s : ProxyState) (b : Nat) :
    (BlobPush s b).pmc =
      { blobMetrics :=
          { s.pmc.blobMetrics with
            Requests := AddUint64 s.pmc.blobMetrics.Requests 1
            Hits := AddUint64 s.pmc.blobMetrics.Hits 1
            BytesPushed := AddUint64 s.pmc.blobMetrics.BytesPushed b }
        manifestMetrics := s.pmc.manifestMetrics } := rfl

theorem ManifestPull_pmc (s : ProxyState) (b : Nat) :
    (ManifestPull s b).pmc =
      { blobMetrics := s.pmc.blobMetrics
        manifestMetrics :=
          { s.pmc.manifestMetrics with
            Misses := AddUint64 s.pmc.manifestMetrics.Misses 1
            BytesPulled := AddUint64 s.pmc.manifestMetrics.BytesPulled b } } := rfl

theorem ManifestPush_pmc (s : ProxyState) (b : Nat) :
    (ManifestPush s b).pmc =
      { blobMetrics := s.pmc.blobMetrics
        manifestMetrics :=
          { s.pmc.manifestMetrics with
            Requests := AddUint64 s.pmc.manifestMetrics.Requests 1
            Hits := AddUint64 s.pmc.manifestMetrics.Hits 1
            BytesPushed := AddUint64 s.pmc.manifestMetrics.BytesPushed b } } := rfl

/-! ## Effect of each operation on its own group -/

/-- C1: `BlobPull b` sets blob `Misses` to the old value plus one and blob
`BytesPulled` to the old value plus `b`, both modulo `2 ^ 64`. -/
theorem BlobPull_effect (s : ProxyState) (b : Nat) :
    (BlobPull s b).pmc.blobMetrics.Misses = (s.pmc.blobMetrics.Misses + 1) % 2 ^ 64 ∧
    (BlobPull s b).pmc.blobMetrics.BytesPulled = (s.pmc.blobMetrics.BytesPulled + b) % 2 ^ 64 :=
  ⟨rfl, rfl⟩

/-- C2: `BlobPush b` sets blob `Requests` and blob `Hits` to their old values plus
one and blob `BytesPushed` to the old value plus `b`, all modulo `2 ^ 64`. -/
theorem BlobPush_effect (s : ProxyState) (b : Nat) :
    (BlobPush s b).pmc.blobMetrics.Requests = (s.pmc.blobMetrics.Requests + 1) % 2 ^ 64 ∧
    (BlobPush s b).pmc.blobMetrics.Hits = (s.pmc.blobMetrics.Hits + 1) % 2 ^ 64 ∧
    (BlobPush s b).pmc.blobMetrics.BytesPushed = (s.pmc.blobMetrics.BytesPushed + b) % 2 ^ 64 :=
  ⟨rfl, rfl, rfl⟩

/-- C3: `ManifestPull b` sets manifest `Misses` to the old value plus one and
manifest `BytesPulled` to the old value plus `b`, both modulo `2 ^ 64`. -/
theorem ManifestPull_effect (s : ProxyState) (b : Nat) :
    (ManifestPull s b).pmc.manifestMetrics.Misses =
      (s.pmc.manifestMetrics.Misses + 1) % 2 ^ 64 ∧
    (ManifestPull s b).pmc.manifestMetrics.BytesPulled =
      (s.pmc.manifestMetrics.BytesPulled + b) % 2 ^ 64 :=
  ⟨rfl, rfl⟩

/-- C4: `ManifestPush b` sets manifest `Requests` and manifest `Hits` to their old
values plus one and manifest `BytesPushed` to the old value plus `b`, all modulo
`2 ^ 64`. -/
theorem ManifestPush_effect (s : ProxyState) (b : Nat) :
    (ManifestPush s b).pmc.manifestMetrics.Requests =
      (s.pmc.manifestMetrics.Requests + 1) % 2 ^ 64 ∧
    (ManifestPush s b).pmc.manifestMetrics.Hits =
      (s.pmc.manifestMetrics.Hits + 1) % 2 ^ 64 ∧
    (ManifestPush s b).pmc.manifestMetrics.BytesPushed =
      (s.pmc.manifestMetrics.BytesPushed + b) % 2 ^ 64 :=
  ⟨rfl, rfl, rfl⟩

/-! ## Sequences of calls: every field is the sum of its deltas -/

theorem runCalls_cons (s : ProxyState) (c : Call) (cs : List Call) :
    runCalls s (c :: cs) = runCalls (c.exec s) cs := rfl

theorem AddUint64_lt (old delta : Nat) : AddUint64 old delta < uint64Size :=
  Nat.mod_lt _ (by decide)

/-- Every operation keeps all ten counters within `uint64`. -/
theorem exec_wf (s : ProxyState) (c : Call) (h : s.pmc.wf) : (c.exec s).pmc.wf := by
  obtain ⟨⟨h1, h2, h3, h4, h5⟩, ⟨h6, h7, h8, h9, h10⟩⟩ := h
  cases c <;>
    simp only [Call.exec, BlobPull_pmc, BlobPush_pmc, ManifestPull_pmc, ManifestPush_pmc,
      proxyMetricsCollector.wf, Metrics.wf] <;>
    refine ⟨⟨?_, ?_, ?_, ?_, ?_⟩, ⟨?_, ?_, ?_, ?_, ?_⟩⟩ <;>
    first | assumption | exact AddUint64_lt _ _

/-- Fields after a list of calls from a start state holding `uint64` values: each
is the start value plus the number (or the byte sum) of the matching calls,
modulo `2 ^ 64`. -/
theorem runCalls_fields (cs : List Call) : ∀ s : ProxyState, s.pmc.wf →
    (runCalls s cs).pmc.blobMetrics.Requests =
      (s.pmc.blobMetrics.Requests + (blobPushBytes cs).length) % 2 ^ 64 ∧
    (runCalls s cs).pmc.blobMetrics.Hits =
      (s.pmc.blobMetrics.Hits + (blobPushBytes cs).length) % 2 ^ 64 ∧
    (runCalls s cs).pmc.blobMetrics.Misses =
      (s.pmc.blobMetrics.Misses + (blobPullBytes cs).length) % 2 ^ 64 ∧
    (runCalls s cs).pmc.blobMetrics.BytesPulled =
      (s.pmc.blobMetrics.BytesPulled + (blobPullBytes cs).sum) % 2 ^ 64 ∧
    (runCalls s cs).pmc.blobMetrics.BytesPushed =
      (s.pmc.blobMetrics.BytesPushed + (blobPushBytes cs).sum) % 2 ^ 64 ∧
    (runCalls s cs).pmc.manifestMetrics.Requests =
      (s.pmc.manifestMetrics.Requests + (manifestPushBytes cs).length) % 2 ^ 64 ∧
    (runCalls s cs).pmc.manifestMetrics.Hits =
      (s.pmc.manifestMetrics.Hits + (manifestPushBytes cs).length) % 2 ^ 64 ∧
    (runCalls s cs).pmc.manifestMetrics.Misses =
      (s.pmc.manifestMetrics.Misses + (manifestPullBytes cs).length) % 2 ^ 64 ∧
    (runCalls s cs).pmc.manifestMetrics.BytesPulled =
      (s.pmc.manifestMetrics.BytesPulled + (manifestPullBytes cs).sum) % 2 ^ 64 ∧
    (runCalls s cs).pmc.manifestMetrics.BytesPushed =
      (s.pmc.manifestMetrics.BytesPushed + (manifestPushBytes cs).sum) % 2 ^ 64 := by
  induction cs with
  | nil =>
    intro s h
    obtain ⟨⟨h1, h2, h3, h4, h5⟩, ⟨h6, h7, h8, h9, h10⟩⟩ := h
    simp only [uint64Size] at h1 h2 h3 h4 h5 h6 h7 h8 h9 h10
    simp only [runCalls, List.foldl_nil, blobPushBytes, blobPullBytes, manifestPushBytes,
      manifestPullBytes, List.filterMap_nil, List.length_nil, List.sum_nil, Nat.add_zero]
    refine ⟨?_, ?_, ?_, ?_, ?_, ?_, ?_, ?_, ?_, ?_⟩ <;> omega
  | cons c cs ih =>
    intro s h
    have hs := ih (c.exec s) (exec_wf s c h)
    rw [runCalls_cons]
    cases c <;>
      simp only [Call.exec, BlobPull_pmc, BlobPush_pmc, ManifestPull_pmc, ManifestPush_pmc,
        AddUint64, uint64Size] at hs <;>
      simp only [Call.exec, blobPushBytes, blobPullBytes, manifestPushBytes,
        manifestPullBytes, List.filterMap_cons, List.length_cons, List.sum_cons] at hs ⊢ <;>
      obtain ⟨e1, e2, e3, e4, e5, e6, e7, e8, e9, e10⟩ := hs <;>
      refine ⟨?_, ?_, ?_, ?_, ?_, ?_, ?_, ?_, ?_, ?_⟩ <;>
      first
        | assumption
        | (rw [e1]; omega) | (rw [e2]; omega) | (rw [e3]; omega) | (rw [e4]; omega)
        | (rw [e5]; omega) | (rw [e6]; omega) | (rw [e7]; omega) | (rw [e8]; omega)
        | (rw [e9]; omega) | (rw [e10]; omega)

theorem manifestPushBytes_replicate (n b : Nat) :
    manifestPushBytes (List.replicate n (Call.ManifestPush b)) = List.replicate n b := by
  induction n with
  | zero => rfl
  | succ n ih =>
    simp only [List.replicate_succ, manifestPushBytes, List.filterMap_cons] at ih ⊢
    rw [ih]

theorem manifestPullBytes_replicate (n b : Nat) :
    manifestPullBytes (List.replicate n (Call.ManifestPush b)) = [] := by
  induction n with
  | zero => rfl
  | succ n ih =>
    simp only [List.replicate_succ, manifestPullBytes, List.filterMap_cons] at ih ⊢
    exact ih

/-- The manifest group after `n` calls `ManifestPush 1` on the fresh collector. -/
theorem runCalls_replicate_ManifestPush (n : Nat) (hn : n < 2 ^ 64) :
    (runCalls ProxyState.fresh (List.replicate n (Call.ManifestPush 1))).pmc.manifestMetrics
      = { Requests := n, Hits := n, Misses := 0, BytesPulled := 0, BytesPushed := n } := by
  obtain ⟨-, -, -, -, -, e6, e7, e8, e9, e10⟩ :=
    runCalls_fields (List.replicate n (Call.ManifestPush 1)) ProxyState.fresh (by decide)
  rw [manifestPushBytes_replicate] at e6 e7 e10
  rw [manifestPullBytes_replicate] at e8 e9
  simp only [ProxyState.fresh, proxyMetrics, Metrics.zero, Nat.zero_add,
    List.length_replicate, List.sum_replicate, List.length_nil, List.sum_nil,
    smul_eq_mul, Nat.mul_one, Nat.zero_mod, Nat.mod_eq_of_lt hn] at e6 e7 e8 e9 e10
  simp only [ProxyState.fresh, proxyMetrics, Metrics.zero]
  generalize (runCalls ⟨⟨⟨0, 0, 0, 0, 0⟩, ⟨0, 0, 0, 0, 0⟩⟩, fun _ => 0⟩
    (List.replicate n (Call.ManifestPush 1))).pmc.manifestMetrics = m at e6 e7 e8 e9 e10 ⊢
  cases m
  simp only [Metrics.mk.injEq]
  exact ⟨e6, e7, e8, e9, e10⟩

/-- C5: from the fresh collector, after any finite list of calls every field is the
sum of the deltas applied to it, modulo `2 ^ 64`: `Misses` counts the pulls of the
class, `Requests` and `Hits` count its pushes, `BytesPulled` and `BytesPushed` are
the sums of its pull and push arguments. In particular 1000 calls `ManifestPush 1`
give manifest `Requests = 1000`, `Hits = 1000`, `BytesPushed = 1000`. -/
theorem runCalls_fresh_sums :
    (∀ cs : List Call,
      (runCalls ProxyState.fresh cs).pmc.blobMetrics.Requests =
        (blobPushBytes cs).length % 2 ^ 64 ∧
      (runCalls ProxyState.fresh cs).pmc.blobMetrics.Hits =
        (blobPushBytes cs).length % 2 ^ 64 ∧
      (runCalls ProxyState.fresh cs).pmc.blobMetrics.Misses =
        (blobPullBytes cs).length % 2 ^ 64 ∧
      (runCalls ProxyState.fresh cs).pmc.blobMetrics.BytesPulled =
        (blobPullBytes cs).sum % 2 ^ 64 ∧
      (runCalls ProxyState.fresh cs).pmc.blobMetrics.BytesPushed =
        (blobPushBytes cs).sum % 2 ^ 64 ∧
      (runCalls ProxyState.fresh cs).pmc.manifestMetrics.Requests =
        (manifestPushBytes cs).length % 2 ^ 64 ∧
      (runCalls ProxyState.fresh cs).pmc.manifestMetrics.Hits =
        (manifestPushBytes cs).length % 2 ^ 64 ∧
      (runCalls ProxyState.fresh cs).pmc.manifestMetrics.Misses =
        (manifestPullBytes cs).length % 2 ^ 64 ∧
      (runCalls ProxyState.fresh cs).pmc.manifestMetrics.BytesPulled =
        (manifestPullBytes cs).sum % 2 ^ 64 ∧
      (runCalls ProxyState.fresh cs).pmc.manifestMetrics.BytesPushed =
        (manifestPushBytes cs).sum % 2 ^ 64) ∧
    (runCalls ProxyState.fresh (List.replicate 1000 (Call.ManifestPush 1))).pmc.manifestMetrics
      = { Requests := 1000, Hits := 1000, Misses := 0, BytesPulled := 0, BytesPushed := 1000 } := by
  have key : ∀ cs : List Call, _ := fun cs =>
    runCalls_fields cs ProxyState.fresh (by decide)
  simp only [ProxyState.fresh, proxyMetrics, Metrics.zero, Nat.zero_add] at key
  exact ⟨key, runCalls_replicate_ManifestPush 1000 (by decide)⟩

/-! ## Frame properties -/

/-- C6: `BlobPull` and `BlobPush` leave all five fields of the manifest group
unchanged, and `ManifestPull` and `ManifestPush` leave all five fields of the blob
group unchanged. -/
theorem other_group_unchanged (s : ProxyState) (b : Nat) :
    (BlobPull s b).pmc.manifestMetrics = s.pmc.manifestMetrics ∧
    (BlobPush s b).pmc.manifestMetrics = s.pmc.manifestMetrics ∧
    (ManifestPull s b).pmc.blobMetrics = s.pmc.blobMetrics ∧
    (ManifestPush s b).pmc.blobMetrics = s.pmc.blobMetrics :=
  ⟨rfl, rfl, rfl, rfl⟩

/-- C7: the pull operations never change `Requests` or `Hits`: `BlobPull` leaves
blob `Requests` and `Hits` as they were and `ManifestPull` leaves manifest
`Requests` and `Hits` as they were; of the blob operations only `BlobPush` changes
blob `Requests` and `Hits`, and of the manifest operations only `ManifestPush`
changes manifest `Requests` and `Hits`. -/
theorem requests_hits_only_push (s : ProxyState) (b : Nat) :
    ((BlobPull s b).pmc.blobMetrics.Requests = s.pmc.blobMetrics.Requests ∧
      (BlobPull s b).pmc.blobMetrics.Hits = s.pmc.blobMetrics.Hits) ∧
    ((ManifestPull s b).pmc.manifestMetrics.Requests = s.pmc.manifestMetrics.Requests ∧
      (ManifestPull s b).pmc.manifestMetrics.Hits = s.pmc.manifestMetrics.Hits) ∧
    ((BlobPush s b).pmc.blobMetrics.Requests ≠ s.pmc.blobMetrics.Requests ∧
      (BlobPush s b).pmc.blobMetrics.Hits ≠ s.pmc.blobMetrics.Hits) ∧
    ((ManifestPush s b).pmc.manifestMetrics.Requests ≠ s.pmc.manifestMetrics.Requests ∧
      (ManifestPush s b).pmc.manifestMetrics.Hits ≠ s.pmc.manifestMetrics.Hits) := by
  refine ⟨⟨rfl, rfl⟩, ⟨rfl, rfl⟩, ⟨?_, ?_⟩, ⟨?_, ?_⟩⟩ <;>
    simp only [BlobPush_pmc, ManifestPush_pmc, AddUint64, uint64Size] <;> omega

/-! ## Worked scenarios -/

/-- C8: on the fresh collector, `BlobPull 50`, `BlobPull 25`, `BlobPush 75` give
the blob group `{Requests 1, Hits 1, Misses 2, BytesPulled 75, BytesPushed 75}` and
leave the manifest group all zero. -/
theorem scenario_pull_pull_push :
    (BlobPush (BlobPull (BlobPull ProxyState.fresh 50) 25) 75).pmc.blobMetrics =
      { Requests := 1, Hits := 1, Misses := 2, BytesPulled := 75, BytesPushed := 75 } ∧
    (BlobPush (BlobPull (BlobPull ProxyState.fresh 50) 25) 75).pmc.manifestMetrics =
      { Requests := 0, Hits := 0, Misses := 0, BytesPulled := 0, BytesPushed := 0 } := by
  decide

/-- C9: on the fresh collector, one `BlobPull 100` followed by one `BlobPush 100`
gives the blob group `{Requests 1, Hits 1, Misses 1, BytesPulled 100, BytesPushed 100}`. -/
theorem scenario_pull_push :
    (BlobPush (BlobPull ProxyState.fresh 100) 100).pmc.blobMetrics =
      { Requests := 1, Hits := 1, Misses := 1, BytesPulled := 100, BytesPushed := 100 } := by
  decide

/-! ## Monotonicity and wrap-around -/

/-- C10 (as stated, refuted): with blob `Misses` at `2 ^ 64 - 1`, a state whose ten
fields are all `uint64` values, `BlobPull 0` lowers blob `Misses` to `0`, so not
every field is at least its value before the call. -/
theorem BlobPull_lowers_misses_at_max :
    missesAtMax.pmc.wf ∧ (0 : Nat) < 2 ^ 64 ∧
    (BlobPull missesAtMax 0).pmc.blobMetrics.Misses = 0 ∧
    (BlobPull missesAtMax 0).pmc.blobMetrics.Misses < missesAtMax.pmc.blobMetrics.Misses ∧
    ¬ missesAtMax.pmc.le (BlobPull missesAtMax 0).pmc := by
  decide

/-- For a state holding `uint64` values and a `uint64` argument, all ten fields after
a call are at least their values before it exactly when none of the additions the
call performs exceeds `2 ^ 64 - 1`. -/
theorem exec_monotone_iff_noWrap (s : ProxyState) (c : Call)
    (hwf : s.pmc.wf) (hb : c.bytes < 2 ^ 64) :
    s.pmc.le (c.exec s).pmc ↔ c.noWrap s.pmc := by
  obtain ⟨⟨h1, h2, h3, h4, h5⟩, ⟨h6, h7, h8, h9, h10⟩⟩ := hwf
  simp only [uint64Size] at h1 h2 h3 h4 h5 h6 h7 h8 h9 h10
  cases c <;>
    simp only [Call.bytes] at hb <;>
    simp only [Call.exec, Call.noWrap, BlobPull_pmc, BlobPush_pmc, ManifestPull_pmc,
      ManifestPush_pmc, proxyMetricsCollector.le, Metrics.le, AddUint64, uint64Size,
      Nat.le_refl, true_and, and_true] <;>
    omega


/-! ## Statements of an operation, and commutation -/

/-- Each operation is the sequence of its statements. -/
theorem exec_eq_steps (s : ProxyState) (c : Call) :
    c.exec s = c.steps.foldl Step.exec s := by
  cases c <;> rfl

theorem AddUint64_comm (x a b : Nat) :
    AddUint64 (AddUint64 x a) b = AddUint64 (AddUint64 x b) a := by
  simp only [AddUint64, uint64Size]; omega

theorem metrics_add_comm (m : Metrics) (f g : Field) (a b : Nat) :
    (m.add f a).add g b = (m.add g b).add f a := by
  cases f <;> cases g <;> simp only [Metrics.add, AddUint64_comm]

theorem WithValuesInc_comm (c : LabeledCounter) (k l : String) :
    WithValuesInc (WithValuesInc c k) l = WithValuesInc (WithValuesInc c l) k := by
  funext x
  simp only [WithValuesInc]
  split <;> split <;> rfl

/-- Any two statements commute. -/
theorem step_exec_comm (s : ProxyState) (a b : Step) :
    b.exec (a.exec s) = a.exec (b.exec s) := by
  cases a with
  | add g f d =>
    cases b with
    | add g1 f1 d1 =>
      cases g <;> cases g1 <;> simp only [Step.exec, metrics_add_comm s.pmc.blobMetrics f f1,
        metrics_add_comm s.pmc.manifestMetrics f f1]
    | inc l => cases g <;> rfl
  | inc k =>
    cases b with
    | add g1 f1 d1 => cases g1 <;> rfl
    | inc l => simp only [Step.exec, WithValuesInc_comm s.proxyCount k l]

/-- Running statements in any order gives the same state. -/
theorem steps_perm (s : ProxyState) {xs ys : List Step} (h : xs.Perm ys) :
    xs.foldl Step.exec s = ys.foldl Step.exec s :=
  @List.Perm.foldl_eq _ _ Step.exec _ _ ⟨fun s a b => step_exec_comm s a b⟩ h s

/-- A list of calls is the concatenation of their statements. -/
theorem runCalls_eq_steps (cs : List Call) : ∀ s : ProxyState,
    runCalls s cs = (cs.map Call.steps).flatten.foldl Step.exec s := by
  induction cs with
  | nil => intro s; rfl
  | cons c cs ih =>
    intro s
    rw [runCalls_cons, ih, exec_eq_steps, List.map_cons, List.flatten_cons, List.foldl_append]

/-- Any two calls commute (on the whole state). -/
theorem call_exec_comm (s : ProxyState) (c d : Call) :
    d.exec (c.exec s) = c.exec (d.exec s) := by
  rw [exec_eq_steps (c.exec s) d, exec_eq_steps s c, exec_eq_steps (d.exec s) c,
    exec_eq_steps s d, ← List.foldl_append, ← List.foldl_append]
  exact steps_perm s List.perm_append_comm

/-- Running calls in any order gives the same state. -/
theorem runCalls_perm (s : ProxyState) {cs ds : List Call} (h : cs.Perm ds) :
    runCalls s cs = runCalls s ds :=
  @List.Perm.foldl_eq _ _ Call.exec _ _ ⟨fun s a b => call_exec_comm s a b⟩ h s

/-! ## The labeled counter -/

/-- C13: with the labeled counter as a map from label to count, each operation
raises the count of the label equal to its own name by exactly one, whatever the
byte argument, and leaves the count of every other label (in particular of the
other three operation names) unchanged. -/
theorem proxyCount_effect (s : ProxyState) (b : Nat) :
    ((BlobPull s b).proxyCount "BlobPull" = s.proxyCount "BlobPull" + 1 ∧
      ∀ l : String, l ≠ "BlobPull" → (BlobPull s b).proxyCount l = s.proxyCount l) ∧
    ((BlobPush s b).proxyCount "BlobPush" = s.proxyCount "BlobPush" + 1 ∧
      ∀ l : String, l ≠ "BlobPush" → (BlobPush s b).proxyCount l = s.proxyCount l) ∧
    ((ManifestPull s b).proxyCount "ManifestPull" = s.proxyCount "ManifestPull" + 1 ∧
      ∀ l : String, l ≠ "ManifestPull" → (ManifestPull s b).proxyCount l = s.proxyCount l) ∧
    ((ManifestPush s b).proxyCount "ManifestPush" = s.proxyCount "ManifestPush" + 1 ∧
      ∀ l : String, l ≠ "ManifestPush" → (ManifestPush s b).proxyCount l = s.proxyCount l) ∧
    (∀ b1 : Nat, (BlobPull s b1).proxyCount = (BlobPull s b).proxyCount ∧
      (BlobPush s b1).proxyCount = (BlobPush s b).proxyCount ∧
      (ManifestPull s b1).proxyCount = (ManifestPull s b).proxyCount ∧
      (ManifestPush s b1).proxyCount = (ManifestPush s b).proxyCount) := by
  refine ⟨⟨?_, ?_⟩, ⟨?_, ?_⟩, ⟨?_, ?_⟩, ⟨?_, ?_⟩, fun b1 => ⟨rfl, rfl, rfl, rfl⟩⟩
  all_goals first
    | (intro l hl
       simp only [BlobPull, BlobPush, ManifestPull, ManifestPush, WithValuesInc, if_neg hl])
    | simp only [BlobPull, BlobPush, ManifestPull, ManifestPush, WithValuesInc, if_true]

/-- Witness for C13: on the fresh state `BlobPull 7` leaves the count of the label
`"BlobPush"`, which differs from `"BlobPull"`, at its old value. -/
theorem proxyCount_effect_witness :
    "BlobPush" ≠ "BlobPull" ∧
    (BlobPull ProxyState.fresh 7).proxyCount "BlobPush" = ProxyState.fresh.proxyCount "BlobPush" :=
  ⟨by decide, (proxyCount_effect ProxyState.fresh 7).1.2 "BlobPush" (by decide)⟩

/-! ## Commutation of calls -/

/-- C18: any two calls commute: performing `c` then `d` gives the same state as
performing `d` then `c`, for all operations and arguments; hence the state after a
finite list of calls is the same for every permutation of the list. -/
theorem calls_commute :
    (∀ (s : ProxyState) (c d : Call), d.exec (c.exec s) = c.exec (d.exec s)) ∧
    (∀ (s : ProxyState) (cs ds : List Call), cs.Perm ds → runCalls s cs = runCalls s ds) :=
  ⟨call_exec_comm, fun s _ _ h => runCalls_perm s h⟩

/-- Witness for C18: a list of three calls and a reordering of it. -/
theorem calls_commute_witness :
    [Call.BlobPull 3, Call.ManifestPush 4, Call.BlobPush 5].Perm
      [Call.BlobPush 5, Call.BlobPull 3, Call.ManifestPush 4] ∧
    runCalls ProxyState.fresh [Call.BlobPull 3, Call.ManifestPush 4, Call.BlobPush 5] =
      runCalls ProxyState.fresh [Call.BlobPush 5, Call.BlobPull 3, Call.ManifestPush 4] :=
  ⟨by decide, calls_commute.2 ProxyState.fresh _ _ (by decide)⟩

/-! ## Hits and requests -/

/-- C19: in every state reached from the fresh collector by a finite sequence of
calls, with any arguments, each group has `Hits` equal to `Requests`; in particular
`Hits ≤ Requests` holds for both groups whatever the caller does. -/
theorem hits_eq_requests (cs : List Call) :
    (runCalls ProxyState.fresh cs).pmc.blobMetrics.Hits =
      (runCalls ProxyState.fresh cs).pmc.blobMetrics.Requests ∧
    (runCalls ProxyState.fresh cs).pmc.manifestMetrics.Hits =
      (runCalls ProxyState.fresh cs).pmc.manifestMetrics.Requests ∧
    (runCalls ProxyState.fresh cs).pmc.blobMetrics.Hits ≤
      (runCalls ProxyState.fresh cs).pmc.blobMetrics.Requests ∧
    (runCalls ProxyState.fresh cs).pmc.manifestMetrics.Hits ≤
      (runCalls ProxyState.fresh cs).pmc.manifestMetrics.Requests := by
  obtain ⟨e1, e2, -, -, -, e6, e7, -, -, -⟩ :=
    runCalls_fields cs ProxyState.fresh (by decide)
  simp only [ProxyState.fresh, proxyMetrics, Metrics.zero] at e1 e2 e6 e7 ⊢
  rw [e1, e2, e6, e7]
  exact ⟨rfl, rfl, Nat.le_refl _, Nat.le_refl _⟩

/-! ## Wrap-around -/

/-- Effect of a call on any one of the ten counters, for a state of `uint64` values:
the old value plus what the call adds to that counter, modulo `2 ^ 64`. -/
theorem exec_get (s : ProxyState) (c : Call) (g : Group) (f : Field) (hwf : s.pmc.wf) :
    (c.exec s).pmc.get g f = (s.pmc.get g f + c.delta g f) % 2 ^ 64 := by
  obtain ⟨⟨h1, h2, h3, h4, h5⟩, ⟨h6, h7, h8, h9, h10⟩⟩ := hwf
  simp only [uint64Size] at h1 h2 h3 h4 h5 h6 h7 h8 h9 h10
  cases c <;> cases g <;> cases f <;>
    simp only [Call.exec, BlobPull_pmc, BlobPush_pmc, ManifestPull_pmc, ManifestPush_pmc,
      proxyMetricsCollector.get, Metrics.get, Call.delta, Call.steps, Step.delta,
      List.map_cons, List.map_nil, List.sum_cons, List.sum_nil, AddUint64, uint64Size,
      and_self, and_true, and_false, false_and, true_and, if_true, if_false, reduceCtorEq,
      Nat.add_zero, Nat.zero_add] <;>
    omega

/-- C11: no operation can fail and overflow wraps. Every call on every state
returns a state, and keeps `uint64` values within `uint64`. For a state of `uint64`
values and a `uint64` argument (`0` and `2 ^ 64 - 1` included), every counter holds
afterwards the old value plus the added delta modulo `2 ^ 64`; when that sum
exceeds `2 ^ 64 - 1` the counter holds the sum minus `2 ^ 64`, which is below
`2 ^ 64 - 1` (no saturation). With blob `BytesPulled` at `2 ^ 64 - 1`, `BlobPull 1`
leaves blob `BytesPulled` at `0`. -/
theorem total_and_wraps :
    (∀ (s : ProxyState) (c : Call), ∃ t : ProxyState, c.exec s = t ∧ (s.pmc.wf → t.pmc.wf)) ∧
    (∀ (s : ProxyState) (c : Call) (g : Group) (f : Field),
      s.pmc.wf → c.bytes < 2 ^ 64 →
        (c.exec s).pmc.get g f = (s.pmc.get g f + c.delta g f) % 2 ^ 64 ∧
        (2 ^ 64 - 1 < s.pmc.get g f + c.delta g f →
          (c.exec s).pmc.get g f = s.pmc.get g f + c.delta g f - 2 ^ 64 ∧
          (c.exec s).pmc.get g f < 2 ^ 64 - 1)) ∧
    (bytesPulledAtMax.pmc.blobMetrics.BytesPulled = 2 ^ 64 - 1 ∧
      (BlobPull bytesPulledAtMax 1).pmc.blobMetrics.BytesPulled = 0) := by
  refine ⟨fun s c => ⟨c.exec s, rfl, exec_wf s c⟩, ?_, by decide⟩
  intro s c g f hwf hb
  have key := exec_get s c g f hwf
  have hold : s.pmc.get g f < 2 ^ 64 := by
    obtain ⟨⟨h1, h2, h3, h4, h5⟩, ⟨h6, h7, h8, h9, h10⟩⟩ := hwf
    simp only [uint64Size] at h1 h2 h3 h4 h5 h6 h7 h8 h9 h10
    cases g <;> cases f <;> simp only [proxyMetricsCollector.get, Metrics.get] <;> omega
  have hdelta : c.delta g f < 2 ^ 64 := by
    cases c <;> cases g <;> cases f <;>
      simp only [Call.bytes] at hb <;>
      simp only [Call.delta, Call.steps, Step.delta, List.map_cons, List.map_nil,
        List.sum_cons, List.sum_nil, and_self, and_true, and_false, false_and, true_and,
        if_true, if_false, reduceCtorEq, Nat.add_zero, Nat.zero_add] <;>
      omega
  refine ⟨key, fun hov => ?_⟩
  rw [key]
  omega

/-- Witness for C11: the state with blob `BytesPulled` at `2 ^ 64 - 1` and the call
`BlobPull (2 ^ 64 - 1)`, whose addition overflows. -/
theorem total_and_wraps_witness :
    bytesPulledAtMax.pmc.wf ∧ (Call.BlobPull (2 ^ 64 - 1)).bytes < 2 ^ 64 ∧
    2 ^ 64 - 1 < bytesPulledAtMax.pmc.get .blob .BytesPulled +
      (Call.BlobPull (2 ^ 64 - 1)).delta .blob .BytesPulled ∧
    ((Call.BlobPull (2 ^ 64 - 1)).exec bytesPulledAtMax).pmc.get .blob .BytesPulled =
      bytesPulledAtMax.pmc.get .blob .BytesPulled +
        (Call.BlobPull (2 ^ 64 - 1)).delta .blob .BytesPulled - 2 ^ 64 :=
  ⟨by decide, by decide, by decide,
    ((total_and_wraps.2.1 bytesPulledAtMax (Call.BlobPull (2 ^ 64 - 1)) .blob .BytesPulled
      (by decide) (by decide)).2 (by decide)).1⟩

/-! ## Concurrent calls: every interleaving gives the sequential result -/

/-- Taking the next statement of the call with index `i` out of the pool only
reorders the pending statements. -/
theorem flatten_perm_of_next : ∀ (ts : List (List Step)) (i : Nat) (x : Step)
    (rest : List Step), ts[i]? = some (x :: rest) →
    ts.flatten.Perm (x :: (ts.set i rest).flatten) := by
  intro ts
  induction ts with
  | nil => intro i x rest h; simp at h
  | cons t ts ih =>
    intro i x rest h
    cases i with
    | zero =>
      simp only [List.getElem?_cons_zero, Option.some.injEq] at h
      subst h
      simp only [List.set_cons_zero, List.flatten_cons, List.cons_append]
      exact List.Perm.refl _
    | succ j =>
      simp only [List.getElem?_cons_succ] at h
      simp only [List.set_cons_succ, List.flatten_cons]
      exact ((ih j x rest h).append_left t).trans List.perm_middle

/-- A scheduling decision does not change the outcome. -/
theorem tick_outcome (st : Conc) (i : Nat) : (tick st i).outcome = st.outcome := by
  unfold tick
  split
  · next x rest h =>
    simp only [Conc.outcome]
    rw [steps_perm st.1 (flatten_perm_of_next st.2 i x rest h)]
    rfl
  · rfl

theorem foldl_tick_outcome (sched : List Nat) : ∀ st : Conc,
    (sched.foldl tick st).outcome = st.outcome := by
  induction sched with
  | nil => intro st; rfl
  | cons i sched ih => intro st; rw [List.foldl_cons, ih, tick_outcome]

theorem flatten_eq_nil_of_done : ∀ ts : List (List Step),
    ts.all List.isEmpty = true → ts.flatten = [] := by
  intro ts
  induction ts with
  | nil => intro _; rfl
  | cons t ts ih =>
    intro h
    simp only [List.all_cons, Bool.and_eq_true, List.isEmpty_iff] at h
    rw [List.flatten_cons, h.1, ih h.2]
    rfl

/-- When every call has finished, the shared state is the sequential result. -/
theorem runSchedule_done (s : ProxyState) (cs : List Call) (sched : List Nat)
    (h : (runSchedule s cs sched).done = true) :
    (runSchedule s cs sched).1 = runCalls s cs := by
  have h1 : (runSchedule s cs sched).outcome = runCalls s cs := by
    rw [runCalls_eq_steps]
    exact foldl_tick_outcome sched (s, cs.map Call.steps)
  rw [← h1, Conc.outcome, flatten_eq_nil_of_done _ h]
  rfl

theorem get_lt_of_wf (c : proxyMetricsCollector) (g : Group) (f : Field) (hwf : c.wf) :
    c.get g f < 2 ^ 64 := by
  obtain ⟨⟨h1, h2, h3, h4, h5⟩, ⟨h6, h7, h8, h9, h10⟩⟩ := hwf
  simp only [uint64Size] at h1 h2 h3 h4 h5 h6 h7 h8 h9 h10
  cases g <;> cases f <;> simp only [proxyMetricsCollector.get, Metrics.get] <;> omega

/-- After a list of calls from a state of `uint64` values, each counter is its start
value plus the sum of what the calls add to it, modulo `2 ^ 64`. -/
theorem runCalls_get (g : Group) (f : Field) (cs : List Call) : ∀ s : ProxyState,
    s.pmc.wf →
    (runCalls s cs).pmc.get g f =
      (s.pmc.get g f + (cs.map fun c => c.delta g f).sum) % 2 ^ 64 := by
  induction cs with
  | nil =>
    intro s hwf
    have := get_lt_of_wf s.pmc g f hwf
    simp only [runCalls, List.foldl_nil, List.map_nil, List.sum_nil, Nat.add_zero]
    omega
  | cons c cs ih =>
    intro s hwf
    rw [runCalls_cons, ih (c.exec s) (exec_wf s c hwf), exec_get s c g f hwf,
      List.map_cons, List.sum_cons]
    omega

theorem runCalls_get_fresh (cs : List Call) (g : Group) (f : Field) :
    (runCalls ProxyState.fresh cs).pmc.get g f =
      (cs.map fun c => c.delta g f).sum % 2 ^ 64 := by
  have h := runCalls_get g f cs ProxyState.fresh (by decide)
  have h0 : ProxyState.fresh.pmc.get g f = 0 := by cases g <;> cases f <;> rfl
  rw [h0, Nat.zero_add] at h
  exact h
theorem done_of_flatten_eq_nil : ∀ ts : List (List Step),
    ts.flatten = [] → ts.all List.isEmpty = true := by
  intro ts
  induction ts with
  | nil => intro _; rfl
  | cons t ts ih =>
    intro h
    rw [List.flatten_cons, List.append_eq_nil] at h
    simp only [List.all_cons, Bool.and_eq_true, List.isEmpty_iff]
    exact ⟨h.1, ih h.2⟩

theorem exists_next_of_flatten_ne_nil : ∀ ts : List (List Step),
    ts.flatten ≠ [] → ∃ (i : Nat) (x : Step) (rest : List Step), ts[i]? = some (x :: rest) := by
  intro ts
  induction ts with
  | nil => intro h; exact absurd rfl h
  | cons t ts ih =>
    intro h
    cases t with
    | cons x rest => exact ⟨0, x, rest, by simp⟩
    | nil =>
      rw [List.flatten_cons, List.nil_append] at h
      obtain ⟨j, x, rest, hj⟩ := ih h
      exact ⟨j + 1, x, rest, by simpa using hj⟩

/-- From any pool of pending statements some schedule lets every call finish. -/
theorem exists_schedule (n : Nat) : ∀ (s : ProxyState) (ts : List (List Step)),
    ts.flatten.length = n → ∃ sched : List Nat, (sched.foldl tick (s, ts)).done = true := by
  induction n with
  | zero =>
    intro s ts h
    exact ⟨[], done_of_flatten_eq_nil ts (List.length_eq_zero.mp h)⟩
  | succ n ih =>
    intro s ts h
    have hne : ts.flatten ≠ [] := by
      intro h0
      rw [h0] at h
      exact absurd h (by simp)
    obtain ⟨i, x, rest, hi⟩ := exists_next_of_flatten_ne_nil ts hne
    have hlen : (ts.set i rest).flatten.length = n := by
      have := (flatten_perm_of_next ts i x rest hi).length_eq
      rw [h, List.length_cons] at this
      omega
    obtain ⟨sched, hs⟩ := ih (x.exec s) (ts.set i rest) hlen
    refine ⟨i :: sched, ?_⟩
    have ht : tick (s, ts) i = (x.exec s, ts.set i rest) := by
      simp only [tick, hi]
    rw [List.foldl_cons, ht]
    exact hs

/-- C12 (amended): for any calls executed concurrently on the fresh collector, under
every interleaving of their individual atomic statements (every schedule that lets
all calls finish, and there always is one), the final state is the state of the
sequential run, and every counter equals the sum of the deltas applied by the calls
modulo `2 ^ 64`, hence that sum itself whenever it is at most `2 ^ 64 - 1`: no
update is lost. -/
theorem interleaving_no_lost_update :
    (∀ cs : List Call, ∃ sched : List Nat,
      (runSchedule ProxyState.fresh cs sched).done = true) ∧
    (∀ (cs : List Call) (sched : List Nat),
      (runSchedule ProxyState.fresh cs sched).done = true →
      (runSchedule ProxyState.fresh cs sched).1 = runCalls ProxyState.fresh cs ∧
      (∀ (g : Group) (f : Field),
        (runSchedule ProxyState.fresh cs sched).1.pmc.get g f =
          (cs.map fun c => c.delta g f).sum % 2 ^ 64) ∧
      (∀ (g : Group) (f : Field), (cs.map fun c => c.delta g f).sum ≤ 2 ^ 64 - 1 →
        (runSchedule ProxyState.fresh cs sched).1.pmc.get g f =
          (cs.map fun c => c.delta g f).sum)) := by
  refine ⟨fun cs => exists_schedule _ ProxyState.fresh (cs.map Call.steps) rfl, ?_⟩
  intro cs sched h
  refine ⟨runSchedule_done _ cs sched h, fun g f => ?_, fun g f hle => ?_⟩
  · rw [runSchedule_done _ cs sched h]
    exact runCalls_get_fresh cs g f
  · rw [runSchedule_done _ cs sched h, runCalls_get_fresh cs g f]
    exact Nat.mod_eq_of_lt (by omega)

/-- Witness for C12 (amended): `BlobPull 5` and `BlobPush 7` interleaved statement by
statement. -/
theorem interleaving_no_lost_update_witness :
    (runSchedule ProxyState.fresh [Call.BlobPull 5, Call.BlobPush 7]
      [0, 1, 1, 0, 1, 0, 1]).done = true ∧
    (runSchedule ProxyState.fresh [Call.BlobPull 5, Call.BlobPush 7]
      [0, 1, 1, 0, 1, 0, 1]).1 =
      runCalls ProxyState.fresh [Call.BlobPull 5, Call.BlobPush 7] :=
  ⟨by decide,
    (interleaving_no_lost_update.2 [Call.BlobPull 5, Call.BlobPush 7]
      [0, 1, 1, 0, 1, 0, 1] (by decide)).1⟩

/-! ## The registration step -/

/-- The tree written by a successful registration, from the entries `rm` of
`registry` and `pmm` of `registry.proxy` found (or created) by it. -/
theorem init_ok_inv (w w1 : World) (h : init w = .ok w1) :
    ∃ rm pmm, (w.vars "registry").getD newMap = .Map rm ∧
      (rm "proxy").getD newMap = .Map pmm ∧
      w1 = { w with vars := expvarSet w.vars "registry" (.Map (expvarSet rm "proxy"
        (.Map (expvarSet (expvarSet pmm "blobs" (.Func blobsFunc))
          "manifests" (.Func manifestsFunc))))) } := by
  unfold init at h
  simp only at h
  split at h
  · next rm hrm =>
    split at h
    · next pmm hpm =>
      refine ⟨rm, pmm, hrm, hpm, ?_⟩
      injection h with h
      exact h.symm
    · exact absurd h (by simp)
  · exact absurd h (by simp)

theorem init_ok_of (w : World) (rm pmm : String → Option Var)
    (h1 : (w.vars "registry").getD newMap = .Map rm)
    (h2 : (rm "proxy").getD newMap = .Map pmm) :
    init w = .ok { w with vars := expvarSet w.vars "registry" (.Map (expvarSet rm "proxy"
        (.Map (expvarSet (expvarSet pmm "blobs" (.Func blobsFunc))
          "manifests" (.Func manifestsFunc))))) } := by
  unfold init
  simp only [h1, h2]

theorem expvarSet_same (m : String → Option Var) (k : String) (v : Var) :
    expvarSet m k v k = some v := by
  simp only [expvarSet, if_true]

theorem expvarSet_other (m : String → Option Var) (k k1 : String) (v : Var) (h : k1 ≠ k) :
    expvarSet m k v k1 = m k1 := by
  simp only [expvarSet, if_neg h]

theorem expvarSet_idem (m : String → Option Var) (k : String) (v : Var) :
    expvarSet (expvarSet m k v) k v = expvarSet m k v := by
  funext x
  simp only [expvarSet]
  split <;> rfl

/-- C14: after a successful registration the tree resolves `registry`, `proxy`,
`blobs` and `registry`, `proxy`, `manifests` to callables; invoked in any state, the
first returns that state's blob group and the second that state's manifest group
(each its own group, not the other one), and the invocation leaves the state as it
was. -/
theorem init_registers_accessors (w w1 : World) (h : init w = .ok w1) :
    ∃ fb fm,
      resolve w1.vars ["registry", "proxy", "blobs"] = some (.Func fb) ∧
      resolve w1.vars ["registry", "proxy", "manifests"] = some (.Func fm) ∧
      (∀ s : ProxyState, fb s = (some s.pmc.blobMetrics, s)) ∧
      (∀ s : ProxyState, fm s = (some s.pmc.manifestMetrics, s)) ∧
      (∀ s : ProxyState, s.pmc.blobMetrics ≠ s.pmc.manifestMetrics →
        (fb s).1 ≠ some s.pmc.manifestMetrics ∧ (fm s).1 ≠ some s.pmc.blobMetrics) := by
  obtain ⟨rm, pmm, -, -, rfl⟩ := init_ok_inv w w1 h
  refine ⟨blobsFunc, manifestsFunc, ?_, ?_, fun _ => rfl, fun _ => rfl, ?_⟩
  · simp [resolve, Var.Get, expvarSet]
  · simp [resolve, Var.Get, expvarSet]
  · intro s hne
    simp only [blobsFunc, manifestsFunc, ne_eq, Option.some.injEq]
    exact ⟨hne, fun e => hne e.symm⟩

/-- Witness for C14: registration on the process at start. -/
theorem init_registers_accessors_witness :
    init World.start = .ok World.registered ∧
    ∃ fb fm,
      resolve World.registered.vars ["registry", "proxy", "blobs"] = some (.Func fb) ∧
      resolve World.registered.vars ["registry", "proxy", "manifests"] = some (.Func fm) ∧
      (∀ s : ProxyState, fb s = (some s.pmc.blobMetrics, s)) ∧
      (∀ s : ProxyState, fm s = (some s.pmc.manifestMetrics, s)) ∧
      (∀ s : ProxyState, s.pmc.blobMetrics ≠ s.pmc.manifestMetrics →
        (fb s).1 ≠ some s.pmc.manifestMetrics ∧ (fm s).1 ≠ some s.pmc.blobMetrics) :=
  ⟨rfl, init_registers_accessors World.start World.registered rfl⟩

theorem newMap_eq (m : String → Option Var) (h : newMap = .Map m) : m = fun _ => none := by
  unfold newMap at h
  injection h with h
  exact h.symm

theorem init_error_iff (w : World) : (∃ e, init w = .error e) ↔ incompatible w.vars := by
  unfold init incompatible
  cases hr : w.vars "registry" with
  | none =>
    simp [newMap]
  | some r =>
    cases r with
    | Map rm =>
      cases hp : rm "proxy" with
      | none => simp [newMap, Var.isMap, hp]
      | some p =>
        cases p <;> simp [Var.isMap, hp]
    | Func f => simp [Var.isMap]
    | Other t => simp [Var.isMap]

/-- C15: with the introspection tree as explicit state, the registration step
fails exactly when the tree holds an incompatible value at the expected path
(`registry` exists and is not a map, or it is a map whose entry `proxy` exists and
is not a map), and succeeds on every other tree, in particular on a tree with no
entry `registry`. -/
theorem init_fails_iff_incompatible (w : World) :
    ((∃ e, init w = .error e) ↔ incompatible w.vars) ∧
    ((∃ w1, init w = .ok w1) ↔ ¬ incompatible w.vars) ∧
    (w.vars "registry" = none → ∃ w1, init w = .ok w1) := by
  have hok : (∃ w1, init w = .ok w1) ↔ ¬ incompatible w.vars := by
    rw [← init_error_iff]
    cases h : init w with
    | error e => simp
    | ok w1 => simp
  refine ⟨init_error_iff w, hok, fun hnone => hok.mpr ?_⟩
  rintro (⟨r, hr, -⟩ | ⟨rm, p, hr, -, -⟩) <;> rw [hnone] at hr <;> exact absurd hr (by simp)

/-- Witness for C15: the process at start has no entry `registry`, and registration
succeeds on it. -/
theorem init_fails_iff_incompatible_witness :
    World.start.vars "registry" = none ∧ ∃ w1, init World.start = .ok w1 :=
  ⟨rfl, (init_fails_iff_incompatible World.start).2.2 rfl⟩

theorem leaves_idem (pmm : String → Option Var) :
    expvarSet (expvarSet
      (expvarSet (expvarSet pmm "blobs" (.Func blobsFunc)) "manifests" (.Func manifestsFunc))
        "blobs" (.Func blobsFunc)) "manifests" (.Func manifestsFunc) =
      expvarSet (expvarSet pmm "blobs" (.Func blobsFunc)) "manifests" (.Func manifestsFunc) := by
  funext x
  simp only [expvarSet]
  split
  · rfl
  · split <;> rfl

/-- C16: when a first registration succeeds, a second one right after it raises no
error, leaves the tree equal to the tree after the first, and leaves every counter
of the collector (and the labeled counter) as it was before the first. -/
theorem init_idempotent (w w1 : World) (h : init w = .ok w1) :
    init w1 = .ok w1 ∧ w1.proxy = w.proxy ∧ w1.proxy.pmc = w.proxy.pmc := by
  obtain ⟨rm, pmm, -, -, rfl⟩ := init_ok_inv w w1 h
  refine ⟨?_, rfl, rfl⟩
  rw [init_ok_of _ (expvarSet rm "proxy"
      (.Map (expvarSet (expvarSet pmm "blobs" (.Func blobsFunc))
        "manifests" (.Func manifestsFunc))))
    (expvarSet (expvarSet pmm "blobs" (.Func blobsFunc)) "manifests" (.Func manifestsFunc))
    (by simp only [expvarSet_same, Option.getD_some])
    (by simp only [expvarSet_same, Option.getD_some])]
  simp only [leaves_idem, expvarSet_idem]

/-- Witness for C16: registration on a process that has already recorded calls and
whose tree already holds `registry.proxy`. -/
theorem init_idempotent_witness :
    (∃ w1, init World.leafTaken = .ok w1 ∧ init w1 = .ok w1 ∧
      w1.proxy.pmc = World.leafTaken.proxy.pmc) ∧
    World.leafTaken.proxy.pmc.blobMetrics.BytesPulled = 9 :=
  ⟨⟨_, rfl, (init_idempotent World.leafTaken _ rfl).1,
    (init_idempotent World.leafTaken _ rfl).2.2⟩, by decide⟩

/-- C17 (as stated, refuted): when `registry.proxy.blobs` already exists and holds a
variable of another kind, registration succeeds and replaces it with the blob
callable: the existing leaf is not left as it was. -/
theorem init_replaces_existing_leaf :
    resolve World.leafTaken.vars ["registry", "proxy", "blobs"] = some (.Other 0) ∧
    ∃ w1, init World.leafTaken = .ok w1 ∧
      resolve w1.vars ["registry", "proxy", "blobs"] = some (.Func blobsFunc) ∧
      resolve w1.vars ["registry", "proxy", "blobs"] ≠
        resolve World.leafTaken.vars ["registry", "proxy", "blobs"] := by
  have h0 : resolve World.leafTaken.vars ["registry", "proxy", "blobs"] = some (.Other 0) := by
    simp [resolve, Var.Get, expvarSet, World.leafTaken]
  obtain ⟨w1, hw1⟩ : ∃ w1, init World.leafTaken = .ok w1 := ⟨_, rfl⟩
  obtain ⟨rm, pmm, -, -, hw⟩ := init_ok_inv _ _ hw1
  have h1 : resolve w1.vars ["registry", "proxy", "blobs"] = some (.Func blobsFunc) := by
    rw [hw]
    simp [resolve, Var.Get, expvarSet]
  refine ⟨h0, w1, hw1, h1, ?_⟩
  rw [h0, h1]
  simp

/-- C17 (amended): a successful registration reuses the maps `registry` and
`registry.proxy` when they exist and leaves what is registered elsewhere in place:
every top-level entry other than `registry`, every entry under `registry` other
than `proxy` and every entry under `registry.proxy` other than `blobs` and
`manifests` is the same after as before. The two leaves `blobs` and `manifests` are
always set to the callables of this collector, whatever they held before. -/
theorem init_frame (w w1 : World) (h : init w = .ok w1) :
    (∀ k : String, k ≠ "registry" → w1.vars k = w.vars k) ∧
    (∀ k : String, k ≠ "proxy" →
      resolve w1.vars ["registry", k] = resolve w.vars ["registry", k]) ∧
    (∀ k : String, k ≠ "blobs" → k ≠ "manifests" →
      resolve w1.vars ["registry", "proxy", k] = resolve w.vars ["registry", "proxy", k]) ∧
    (∀ rm, w.vars "registry" = some (.Map rm) →
      ∃ rm1, w1.vars "registry" = some (.Map rm1) ∧ ∀ k : String, k ≠ "proxy" → rm1 k = rm k) ∧
    (∀ rm pm, w.vars "registry" = some (.Map rm) → rm "proxy" = some (.Map pm) →
      ∃ pm1, resolve w1.vars ["registry", "proxy"] = some (.Map pm1) ∧
        ∀ k : String, k ≠ "blobs" → k ≠ "manifests" → pm1 k = pm k) ∧
    resolve w1.vars ["registry", "proxy", "blobs"] = some (.Func blobsFunc) ∧
    resolve w1.vars ["registry", "proxy", "manifests"] = some (.Func manifestsFunc) := by
  obtain ⟨rm, pmm, hr, hp, rfl⟩ := init_ok_inv w w1 h
  refine ⟨?_, ?_, ?_, ?_, ?_, ?_, ?_⟩
  · intro k hk
    simp only [expvarSet, if_neg hk]
  · intro k hk
    cases hreg : w.vars "registry" with
    | none =>
      rw [hreg] at hr
      have := newMap_eq rm hr
      subst this
      simp [resolve, Var.Get, expvarSet, hk, hreg]
    | some r =>
      rw [hreg] at hr
      simp only [Option.getD_some] at hr
      subst hr
      simp [resolve, Var.Get, expvarSet, hk, hreg]
  · intro k hkb hkm
    cases hreg : w.vars "registry" with
    | none =>
      rw [hreg] at hr
      have := newMap_eq rm hr
      subst this
      simp only [Option.getD_none] at hp
      have := newMap_eq pmm hp
      subst this
      simp [resolve, Var.Get, expvarSet, hkb, hkm, hreg]
    | some r =>
      rw [hreg] at hr
      simp only [Option.getD_some] at hr
      subst hr
      cases hprox : rm "proxy" with
      | none =>
        rw [hprox] at hp
        have := newMap_eq pmm hp
        subst this
        simp [resolve, Var.Get, expvarSet, hkb, hkm, hreg, hprox]
      | some p =>
        rw [hprox] at hp
        simp only [Option.getD_some] at hp
        subst hp
        simp [resolve, Var.Get, expvarSet, hkb, hkm, hreg, hprox]
  · intro rm0 hreg
    rw [hreg] at hr
    simp only [Option.getD_some, Var.Map.injEq] at hr
    subst hr
    exact ⟨expvarSet rm0 "proxy" (.Map (expvarSet (expvarSet pmm "blobs" (.Func blobsFunc))
        "manifests" (.Func manifestsFunc))),
      expvarSet_same w.vars "registry" _, fun k hk => expvarSet_other _ _ _ _ hk⟩
  · intro rm0 pm0 hreg hprox
    rw [hreg] at hr
    simp only [Option.getD_some, Var.Map.injEq] at hr
    subst hr
    rw [hprox] at hp
    simp only [Option.getD_some, Var.Map.injEq] at hp
    subst hp
    refine ⟨expvarSet (expvarSet pm0 "blobs" (.Func blobsFunc)) "manifests"
        (.Func manifestsFunc),
      by simp [resolve, Var.Get, expvarSet], fun k hkb hkm => ?_⟩
    simp only [expvarSet, if_neg hkb, if_neg hkm]
  · simp [resolve, Var.Get, expvarSet]
  · simp [resolve, Var.Get, expvarSet]

/-- Witness for C17 (amended): registration on the tree whose `registry.proxy.blobs`
is already taken. -/
theorem init_frame_witness :
    ∃ w1, init World.leafTaken = .ok w1 ∧
      (∀ k : String, k ≠ "registry" → w1.vars k = World.leafTaken.vars k) ∧
      resolve w1.vars ["registry", "proxy", "manifests"] = some (.Func manifestsFunc) :=
  ⟨_, rfl, (init_frame World.leafTaken _ rfl).1, (init_frame World.leafTaken _ rfl).2.2.2.2.2.2⟩

/-! ## Monotonicity counter by counter -/

theorem delta_lt_of_bytes_lt (c : Call) (g : Group) (f : Field) (hb : c.bytes < 2 ^ 64) :
    c.delta g f < 2 ^ 64 := by
  cases c <;> cases g <;> cases f <;>
    simp only [Call.bytes] at hb <;>
    simp only [Call.delta, Call.steps, Step.delta, List.map_cons, List.map_nil,
      List.sum_cons, List.sum_nil, and_self, and_true, and_false, false_and, true_and,
      if_true, if_false, reduceCtorEq, Nat.add_zero, Nat.zero_add] <;>
    omega

theorem delta_eq_zero_of_not_touches (c : Call) (g : Group) (f : Field)
    (h : c.touches g f = false) : c.delta g f = 0 := by
  cases c <;> cases g <;> cases f <;>
    simp [Call.touches, Call.steps, Step.touches] at h <;>
    simp [Call.delta, Call.steps, Step.delta]

/-- A counter the call does not add to is unchanged, in every state. -/
theorem exec_get_of_not_touches (s : ProxyState) (c : Call) (g : Group) (f : Field)
    (h : c.touches g f = false) : (c.exec s).pmc.get g f = s.pmc.get g f := by
  cases c <;> cases g <;> cases f <;>
    simp [Call.touches, Call.steps, Step.touches] at h <;>
    rfl

/-- C10 (amended): for a state holding `uint64` values and a `uint64` argument, each
of the ten counters is at least its value before the call unless the addition on
that very counter wraps. A counter the call does not add to is unchanged. A counter
it adds `delta` to (`1` for `Misses`, `Requests`, `Hits`; the byte argument for
`BytesPulled`, `BytesPushed`) holds the old value plus `delta`, which is at least
the old value, when that sum is at most `2 ^ 64 - 1`; otherwise it holds the sum
minus `2 ^ 64`, which is below the old value. Hence all ten counters are at least
their old values exactly when none of the additions of the call wraps. -/
theorem exec_field_monotone_unless_wrap (s : ProxyState) (c : Call) (g : Group) (f : Field)
    (hwf : s.pmc.wf) (hb : c.bytes < 2 ^ 64) :
    (c.touches g f = false → (c.exec s).pmc.get g f = s.pmc.get g f) ∧
    (s.pmc.get g f + c.delta g f ≤ 2 ^ 64 - 1 →
      (c.exec s).pmc.get g f = s.pmc.get g f + c.delta g f ∧
      s.pmc.get g f ≤ (c.exec s).pmc.get g f) ∧
    (2 ^ 64 - 1 < s.pmc.get g f + c.delta g f →
      (c.exec s).pmc.get g f = s.pmc.get g f + c.delta g f - 2 ^ 64 ∧
      (c.exec s).pmc.get g f < s.pmc.get g f) ∧
    (s.pmc.get g f ≤ (c.exec s).pmc.get g f ↔ s.pmc.get g f + c.delta g f ≤ 2 ^ 64 - 1) ∧
    (s.pmc.le (c.exec s).pmc ↔ c.noWrap s.pmc) ∧
    (∀ (b : Nat) (g1 : Group) (f1 : Field),
      ((Call.BlobPull b).touches g1 f1 = true ↔
        g1 = .blob ∧ (f1 = .Misses ∨ f1 = .BytesPulled)) ∧
      ((Call.BlobPush b).touches g1 f1 = true ↔
        g1 = .blob ∧ (f1 = .Requests ∨ f1 = .Hits ∨ f1 = .BytesPushed)) ∧
      ((Call.ManifestPull b).touches g1 f1 = true ↔
        g1 = .manifest ∧ (f1 = .Misses ∨ f1 = .BytesPulled)) ∧
      ((Call.ManifestPush b).touches g1 f1 = true ↔
        g1 = .manifest ∧ (f1 = .Requests ∨ f1 = .Hits ∨ f1 = .BytesPushed))) ∧
    (∀ b : Nat,
      (Call.BlobPull b).delta .blob .Misses = 1 ∧
      (Call.BlobPull b).delta .blob .BytesPulled = b ∧
      (Call.BlobPush b).delta .blob .Requests = 1 ∧
      (Call.BlobPush b).delta .blob .Hits = 1 ∧
      (Call.BlobPush b).delta .blob .BytesPushed = b ∧
      (Call.ManifestPull b).delta .manifest .Misses = 1 ∧
      (Call.ManifestPull b).delta .manifest .BytesPulled = b ∧
      (Call.ManifestPush b).delta .manifest .Requests = 1 ∧
      (Call.ManifestPush b).delta .manifest .Hits = 1 ∧
      (Call.ManifestPush b).delta .manifest .BytesPushed = b) := by
  have key := exec_get s c g f hwf
  have hold := get_lt_of_wf s.pmc g f hwf
  have hdelta := delta_lt_of_bytes_lt c g f hb
  refine ⟨exec_get_of_not_touches s c g f, ?_, ?_, ?_,
    exec_monotone_iff_noWrap s c hwf hb, ?_, ?_⟩
  · intro h
    rw [key]
    omega
  · intro h
    rw [key]
    omega
  · rw [key]
    omega
  · intro b g1 f1
    cases g1 <;> cases f1 <;> simp [Call.touches, Call.steps, Step.touches]
  · intro b
    simp [Call.delta, Call.steps, Step.delta]

/-- Witness for C10 (amended): with blob `Misses` at `2 ^ 64 - 1`, the call
`BlobPull 7` wraps blob `Misses`, which drops below its old value. -/
theorem exec_field_monotone_unless_wrap_witness :
    missesAtMax.pmc.wf ∧ (Call.BlobPull 7).bytes < 2 ^ 64 ∧
    2 ^ 64 - 1 < missesAtMax.pmc.get .blob .Misses + (Call.BlobPull 7).delta .blob .Misses ∧
    ((Call.BlobPull 7).exec missesAtMax).pmc.get .blob .Misses <
      missesAtMax.pmc.get .blob .Misses :=
  ⟨by decide, by decide, by decide,
    ((exec_field_monotone_unless_wrap missesAtMax (Call.BlobPull 7) .blob .Misses
      (by decide) (by decide)).2.2.1 (by decide)).2⟩

/-- C12 (as stated, refuted): two concurrent calls `BlobPull (2 ^ 64 - 1)` and
`BlobPull 1`, interleaved statement by statement until both have finished, leave
blob `BytesPulled` at `0`, while the deltas applied to it sum to `2 ^ 64`. -/
theorem interleaving_sum_wraps :
    (∀ c ∈ wrappingCalls, c.bytes < 2 ^ 64) ∧
    (runSchedule ProxyState.fresh wrappingCalls [0, 1, 0, 1, 0, 1]).done = true ∧
    (runSchedule ProxyState.fresh wrappingCalls [0, 1, 0, 1, 0, 1]).1.pmc.get
      .blob .BytesPulled = 0 ∧
    (wrappingCalls.map fun c => c.delta .blob .BytesPulled).sum = 2 ^ 64 ∧
    (runSchedule ProxyState.fresh wrappingCalls [0, 1, 0, 1, 0, 1]).1.pmc.get
      .blob .BytesPulled ≠ (wrappingCalls.map fun c => c.delta .blob .BytesPulled).sum := by
  decide

end Proxy
